import Mathlib

/-!
Verification of the PII detection-and-masking pipeline of the
Email-Classification-System repository (`src/utils.py`).

Texts are modelled as `List Char`.  Python string slicing `t[a:b]` (with
non-negative clamped indices, as produced by `max(0, ...)`/`min(len, ...)`
in the source) is modelled by `slice`.  Regular-expression scanning is
embedded directly: each regex used by the source is small and
backtracking-free in context, so its `re.finditer` semantics (try every
position left to right, continue after the end of each match) is translated
into structurally recursive scanners that carry a skip counter for the
"continue after the match" step.

Confidence scores are exact decimal fractions in the source (0.9, 0.85,
0.8, 0.7); they are modelled as rationals built by explicit constructors so
that every comparison evaluates by `decide`.
-/

namespace EmailPII

/-- score 0.9 from the source, as an explicit rational so `decide` can evaluate it. -/
def score09 : ℚ := ⟨9, 10, by decide, by decide⟩

/-- score 0.85 from the source. -/
def score085 : ℚ := ⟨17, 20, by decide, by decide⟩

/-- score 0.8 from the source. -/
def score08 : ℚ := ⟨4, 5, by decide, by decide⟩

/-- score 0.7 from the source. -/
def score07 : ℚ := ⟨7, 10, by decide, by decide⟩

/-- Python `\s` / `str.strip` whitespace, ASCII range (space, tab, newline,
carriage return, vertical tab, form feed). -/
def isPySpace (c : Char) : Bool :=
  c = ' ' || c = '\t' || c = '\n' || c = '\r' || c = '\x0b' || c = '\x0c'

/-- Python `\w` word character, ASCII range: letters, digits, underscore. -/
def isWordChar (c : Char) : Bool := c.isAlpha || c.isDigit || c = '_'

/-- `str.lower()` on a character list (ASCII, via `Char.toLower`). -/
def lower (l : List Char) : List Char := l.map Char.toLower

/-- Python slice `t[a:b]` for non-negative clamped indices: empty when `b ≤ a`,
clamped to the length of `t`. -/
def slice (l : List Char) (a b : Nat) : List Char := (l.drop a).take (b - a)

/-- Python substring containment `needle in hay`. -/
def containsSub (needle : List Char) : List Char → Bool
  | [] => needle.isEmpty
  | c :: rest => needle.isPrefixOf (c :: rest) || containsSub needle rest

/-- Length of the maximal run of characters satisfying `p` at the front. -/
def countWhile (p : Char → Bool) : List Char → Nat
  | [] => 0
  | c :: rest => if p c then countWhile p rest + 1 else 0

/-- True when the list is empty or starts with a non-word character
(the situation in which `\b` holds after a word character). -/
def nonWordHead : List Char → Bool
  | [] => true
  | c :: _ => !isWordChar c

/-! ### `clean_text` (src/utils.py lines 7-13)

`re.sub(r"<[^>]+>", "", text)` removes, scanning left to right, every
leftmost match of `<`, one or more non-`>` characters, then `>`; after each
match scanning resumes at the character following the match.  Then
`re.sub(r"\s+", " ", ...)` collapses every whitespace run to a single space
and `.strip()` trims both ends. -/

/-- Scan for the first `'>'`; return the number of characters consumed
through it (starting from `acc` already consumed), or `none` if there is no
`'>'`.  Models the `[^>]+>` tail of the tag regex. -/
def gtLen (acc : Nat) : List Char → Option Nat
  | [] => none
  | c :: rest => if c = '>' then some (acc + 1) else gtLen (acc + 1) rest

/-- Match `[^>]+>` at the front of the list (the part of the tag regex after
the opening `<`); return the number of characters it consumes. -/
def findTagLen : List Char → Option Nat
  | [] => none
  | c :: rest => if c = '>' then none else gtLen 1 rest

/-- One left-to-right pass of `re.sub(r"<[^>]+>", "", ·)`.  The first
argument counts characters still to be skipped because they belong to a
match that has already been recognised. -/
def stripTagsAux : Nat → List Char → List Char
  | _, [] => []
  | skip + 1, _ :: rest => stripTagsAux skip rest
  | 0, c :: rest =>
    if c = '<' then
      match findTagLen rest with
      | some n => stripTagsAux n rest
      | none => c :: stripTagsAux 0 rest
    else c :: stripTagsAux 0 rest

/-- `re.sub(r"<[^>]+>", "", text)`. -/
def stripTags (l : List Char) : List Char := stripTagsAux 0 l

/-- One pass of `re.sub(r"\s+", " ", ·)`.  The Boolean argument records
whether the previous character was whitespace (i.e. we are inside a run that
has already emitted its single space). -/
def collapseWsAux : Bool → List Char → List Char
  | _, [] => []
  | inRun, c :: rest =>
    if isPySpace c then
      if inRun then collapseWsAux true rest else ' ' :: collapseWsAux true rest
    else c :: collapseWsAux false rest

/-- `re.sub(r"\s+", " ", text)`. -/
def collapseWs (l : List Char) : List Char := collapseWsAux false l

/-- Remove trailing whitespace (the right half of `str.strip()`). -/
def trimRight : List Char → List Char
  | [] => []
  | c :: rest =>
    if isPySpace c then
      match trimRight rest with
      | [] => []
      | d :: r => c :: d :: r
    else c :: trimRight rest

/-- `str.strip()`. -/
def trim (l : List Char) : List Char := trimRight (l.dropWhile isPySpace)

/-- `clean_text` from src/utils.py lines 7-13: remove HTML-tag-like
substrings, collapse whitespace runs to single spaces, trim both ends. -/
def clean_text (l : List Char) : List Char := trim (collapseWs (stripTags l))

/-! ### Entity candidates and the overlap resolver (src/utils.py 106-137)

The pipeline's entity dictionaries have keys `entity_type`, `start`, `end`,
`entity`, `score` and (for contextual CVV candidates only) `context`; they
are modelled as one structure, with `context` optional. -/

structure Entity where
  entity_type : String
  start : Int
  «end» : Int
  entity : List Char
  score : ℚ
  context : Option (List Char) := none
  deriving DecidableEq, Repr

/-- Stable ascending sort by `start`, modelling `entities.sort(key=lambda x: x["start"])`. -/
def sortByStart (l : List Entity) : List Entity :=
  List.insertionSort (fun a b => a.start ≤ b.start) l

/-- The body of the resolution loop of `resolve_overlapping_entities`,
acting on the accumulator in reverse order (most recently kept entity
first), so that "the last accumulated entity" is the head. -/
def resolveStep (resolved : List Entity) (current : Entity) : List Entity :=
  match resolved with
  | [] => [current]
  | last :: rest =>
    if current.start < last.«end» then
      if current.score > last.score ∨
          (current.score = last.score ∧
            current.«end» - current.start > last.«end» - last.start) then
        current :: rest
      else
        last :: rest
    else current :: last :: rest

/-- `resolve_overlapping_entities` from src/utils.py lines 106-137. -/
def resolve_overlapping_entities (entities : List Entity) : List Entity :=
  ((sortByStart entities).foldl resolveStep []).reverse

/-- The resolver as the specification (§4.5) words it: walk the sorted
candidates keeping a forward accumulator; append when the accumulator is
empty or the candidate starts at or after the last accumulated entity's
end; otherwise a strictly higher score, or an equal score with a strictly
longer span, replaces the last accumulated entity, and in every other case
the candidate is dropped. -/
def resolveSpec (acc : List Entity) : List Entity → List Entity
  | [] => acc
  | c :: rest =>
    match acc.getLast? with
    | none => resolveSpec (acc ++ [c]) rest
    | some last =>
      if last.«end» ≤ c.start then resolveSpec (acc ++ [c]) rest
      else if c.score > last.score ∨
          (c.score = last.score ∧ c.«end» - c.start > last.«end» - last.start) then
        resolveSpec (acc.dropLast ++ [c]) rest
      else resolveSpec acc rest

instance : IsTotal Entity (fun a b => a.start ≤ b.start) :=
  ⟨fun a b => Int.le_total a.start b.start⟩

instance : IsTrans Entity (fun a b => a.start ≤ b.start) :=
  ⟨fun _ _ _ h₁ h₂ => le_trans h₁ h₂⟩

lemma sortByStart_pairwise (l : List Entity) :
    List.Pairwise (fun a b => a.start ≤ b.start) (sortByStart l) :=
  List.sorted_insertionSort (fun a b : Entity => a.start ≤ b.start) l

lemma mem_sortByStart {x : Entity} {l : List Entity} (h : x ∈ sortByStart l) : x ∈ l :=
  (List.perm_insertionSort (fun a b : Entity => a.start ≤ b.start) l).mem_iff.mp h

lemma mem_resolveStep {y c : Entity} {acc : List Entity}
    (h : y ∈ resolveStep acc c) : y = c ∨ y ∈ acc := by
  cases acc with
  | nil => simp [resolveStep] at h; simp [h]
  | cons last t =>
    simp only [resolveStep] at h
    split_ifs at h
    · rcases List.mem_cons.mp h with rfl | h'
      · exact Or.inl rfl
      · exact Or.inr (List.mem_cons_of_mem _ h')
    · exact Or.inr h
    · rcases List.mem_cons.mp h with rfl | h'
      · exact Or.inl rfl
      · exact Or.inr h'

lemma mem_foldl_resolveStep :
    ∀ (l acc : List Entity) (y : Entity),
      y ∈ List.foldl resolveStep acc l → y ∈ l ∨ y ∈ acc := by
  intro l
  induction l with
  | nil => intro acc y h; simp at h; simp [h]
  | cons c rest ih =>
    intro acc y h
    rw [List.foldl_cons] at h
    rcases ih (resolveStep acc c) y h with h₁ | h₁
    · simp [h₁]
    · rcases mem_resolveStep h₁ with h₂ | h₂ <;> simp [h₂]

lemma resolveStep_pairwise {acc : List Entity} {c : Entity}
    (hacc : List.Pairwise (fun a b => b.«end» ≤ a.start) acc)
    (hhd : ∀ y ∈ acc.head?, y.start ≤ c.start) :
    List.Pairwise (fun a b => b.«end» ≤ a.start) (resolveStep acc c) := by
  cases acc with
  | nil => simp [resolveStep]
  | cons last t =>
    rcases List.pairwise_cons.mp hacc with ⟨h₁, h₂⟩
    have hlast : last.start ≤ c.start := hhd last (by simp)
    simp only [resolveStep]
    split_ifs with hov hwin
    · exact List.pairwise_cons.mpr ⟨fun y hy => le_trans (h₁ y hy) hlast, h₂⟩
    · exact hacc
    · refine List.pairwise_cons.mpr ⟨?_, hacc⟩
      intro y hy
      rcases List.mem_cons.mp hy with rfl | hy'
      · exact Int.not_lt.mp hov
      · exact le_trans (h₁ y hy') hlast

lemma resolveStep_head_start {acc : List Entity} {c : Entity}
    (hhd : ∀ y ∈ acc.head?, y.start ≤ c.start) :
    ∀ y ∈ (resolveStep acc c).head?, y.start ≤ c.start := by
  cases acc with
  | nil => simp [resolveStep]
  | cons last t =>
    have hlast : last.start ≤ c.start := hhd last (by simp)
    simp only [resolveStep]
    split_ifs <;> simp [hlast]

lemma pairwise_foldl_resolveStep :
    ∀ (l acc : List Entity),
      List.Pairwise (fun a b => a.start ≤ b.start) l →
      List.Pairwise (fun a b => b.«end» ≤ a.start) acc →
      (∀ x ∈ l, ∀ y ∈ acc.head?, y.start ≤ x.start) →
      List.Pairwise (fun a b => b.«end» ≤ a.start) (List.foldl resolveStep acc l) := by
  intro l
  induction l with
  | nil => intro acc _ hacc _; simpa using hacc
  | cons c rest ih =>
    intro acc hsorted hacc hhead
    rw [List.foldl_cons]
    rcases List.pairwise_cons.mp hsorted with ⟨hc, hrest⟩
    have hhdc : ∀ y ∈ acc.head?, y.start ≤ c.start := fun y hy => hhead c (by simp) y hy
    exact ih (resolveStep acc c) hrest (resolveStep_pairwise hacc hhdc)
      (fun x hx y hy => le_trans (resolveStep_head_start hhdc y hy) (hc x hx))

/-- Claim C1: for every candidate list whose members all satisfy
`start < end`, the output of `resolve_overlapping_entities` is sorted
strictly ascending by `start` and pairwise non-overlapping (`a.end ≤
b.start` for every pair `a` before `b`, hence in particular for adjacent
pairs), even in three-way overlap clusters. -/
theorem C1_resolver_non_overlap (entities : List Entity)
    (h : ∀ e ∈ entities, e.start < e.«end») :
    List.Pairwise (fun a b => a.«end» ≤ b.start ∧ a.start < b.start)
      (resolve_overlapping_entities entities) := by
  have hp := pairwise_foldl_resolveStep (sortByStart entities) []
    (sortByStart_pairwise entities) (by simp) (by simp)
  have hrev : List.Pairwise (fun a b => a.«end» ≤ b.start)
      (resolve_overlapping_entities entities) :=
    List.pairwise_reverse.mpr hp
  have hmem : ∀ y ∈ resolve_overlapping_entities entities, y.start < y.«end» := by
    intro y hy
    rw [resolve_overlapping_entities, List.mem_reverse] at hy
    rcases mem_foldl_resolveStep _ _ _ hy with h₁ | h₁
    · exact h y (mem_sortByStart h₁)
    · simp at h₁
  exact hrev.imp_of_mem (fun ha hb hab => ⟨hab, lt_of_lt_of_le (hmem _ ha) hab⟩)

/-- Witness: `C1_resolver_non_overlap` applied to a concrete three-way
overlap cluster (starts 0, 5, 12; ends 10, 15, 20; the middle candidate has
the highest score). -/
theorem C1_resolver_non_overlap_witness :
    (∀ e ∈ [(⟨"X", 0, 10, [], score07, none⟩ : Entity),
            ⟨"Y", 5, 15, [], score09, none⟩,
            ⟨"Z", 12, 20, [], score07, none⟩], e.start < e.«end») ∧
    List.Pairwise (fun a b => a.«end» ≤ b.start ∧ a.start < b.start)
      (resolve_overlapping_entities
        [⟨"X", 0, 10, [], score07, none⟩,
         ⟨"Y", 5, 15, [], score09, none⟩,
         ⟨"Z", 12, 20, [], score07, none⟩]) :=
  ⟨by decide, C1_resolver_non_overlap _ (by decide)⟩

lemma foldl_resolveStep_reverse_eq :
    ∀ (l acc : List Entity),
      (List.foldl resolveStep acc l).reverse = resolveSpec acc.reverse l := by
  intro l
  induction l with
  | nil => intro acc; simp [resolveSpec]
  | cons c rest ih =>
    intro acc
    rw [List.foldl_cons, ih]
    cases acc with
    | nil => simp [resolveStep, resolveSpec]
    | cons last t =>
      by_cases hov : c.start < last.«end»
      · by_cases hwin : c.score > last.score ∨
            (c.score = last.score ∧ c.«end» - c.start > last.«end» - last.start)
        · simp [resolveStep, resolveSpec, hov, hwin, Int.not_le.mpr hov,
            List.getLast?_concat, List.dropLast_concat]
        · simp [resolveStep, resolveSpec, hov, hwin, Int.not_le.mpr hov,
            List.getLast?_concat]
      · simp [resolveStep, resolveSpec, hov, Int.not_lt.mp hov, List.getLast?_concat]

/-- Claim C2: the overlap resolver processes the candidates in ascending
start order exactly as §4.5 words it (`resolveSpec`): append when there is
no overlap with the last accumulated entity, replace it on strictly higher
score or on equal score with strictly longer span, drop otherwise; and on
the concrete pair A (score 0.9, span 0-10), B (score 0.7, span 5-15) the
result keeps A and drops B. -/
theorem C2_resolver_local_policy :
    (∀ l : List Entity,
      resolve_overlapping_entities l = resolveSpec [] (sortByStart l)) ∧
    resolve_overlapping_entities
        [⟨"A", 0, 10, [], score09, none⟩, ⟨"B", 5, 15, [], score07, none⟩]
      = [⟨"A", 0, 10, [], score09, none⟩] := by
  refine ⟨fun l => ?_, by decide⟩
  have h := foldl_resolveStep_reverse_eq (sortByStart l) []
  simpa [resolve_overlapping_entities] using h

/-! ### Idempotence of `clean_text`

Key structural facts: after the tag-removal pass every remaining `'<'` is
either not followed by any `'>'` at all, or immediately followed by one
(`goodB`), and on such strings the tag pass is the identity; after the
whitespace pass every whitespace character is a single `' '` with no two
adjacent (`noAdjWs`), and trimming leaves no whitespace at either end. -/

/-- Whether `'>'` occurs in the list. -/
def hasGt : List Char → Bool
  | [] => false
  | c :: rest => c = '>' || hasGt rest

/-- Whether the list starts with `'>'`. -/
def headIsGt : List Char → Bool
  | [] => false
  | c :: _ => c = '>'

/-- Every `'<'` in the list is immediately followed by `'>'` or not followed
by any `'>'` at all — the configurations on which the tag regex cannot
match. -/
def goodB : List Char → Bool
  | [] => true
  | c :: rest => (if c = '<' then headIsGt rest || !hasGt rest else true) && goodB rest

/-- No two adjacent whitespace characters. -/
def noAdjWs : List Char → Bool
  | [] => true
  | [_] => true
  | a :: b :: rest => (!(isPySpace a && isPySpace b)) && noAdjWs (b :: rest)

/-- Empty or starting with a non-whitespace character. -/
def headNotWs : List Char → Bool
  | [] => true
  | c :: _ => !isPySpace c

/-- Empty or ending with a non-whitespace character. -/
def lastNotWs : List Char → Bool
  | [] => true
  | [c] => !isPySpace c
  | _ :: c :: rest => lastNotWs (c :: rest)

lemma hasGt_eq_false_iff {l : List Char} : hasGt l = false ↔ '>' ∉ l := by
  induction l with
  | nil => simp [hasGt]
  | cons c rest ih =>
    simp only [hasGt, Bool.or_eq_false_iff, decide_eq_false_iff_not, ih, List.mem_cons]
    exact ⟨fun ⟨h1, h2⟩ => not_or.mpr ⟨fun he => h1 he.symm, h2⟩,
      fun h => ⟨fun he => (not_or.mp h).1 he.symm, (not_or.mp h).2⟩⟩

lemma gtLen_eq_none_of_nogt {l : List Char} (h : hasGt l = false) :
    ∀ a, gtLen a l = none := by
  induction l with
  | nil => intro a; rfl
  | cons c rest ih =>
    intro a
    simp only [hasGt, Bool.or_eq_false_iff] at h
    simp only [gtLen, if_neg (by simpa using h.1)]
    exact ih h.2 _

lemma findTagLen_of_nogt {l : List Char} (h : hasGt l = false) :
    findTagLen l = none := by
  cases l with
  | nil => rfl
  | cons c rest =>
    simp only [hasGt, Bool.or_eq_false_iff] at h
    simp only [findTagLen, if_neg (by simpa using h.1)]
    exact gtLen_eq_none_of_nogt h.2 _

lemma gtLen_none_hasGt :
    ∀ (l : List Char) (a : Nat), gtLen a l = none → hasGt l = false := by
  intro l
  induction l with
  | nil => intro a _; rfl
  | cons c rest ih =>
    intro a h
    by_cases hc : c = '>'
    · simp [gtLen, hc] at h
    · simp only [gtLen, if_neg hc] at h
      simp [hasGt, hc, ih _ h]

lemma findTagLen_none_cases {l : List Char} (h : findTagLen l = none) :
    l = [] ∨ headIsGt l = true ∨ hasGt l = false := by
  cases l with
  | nil => exact Or.inl rfl
  | cons c rest =>
    by_cases hc : c = '>'
    · exact Or.inr (Or.inl (by simp [headIsGt, hc]))
    · right; right
      simp only [findTagLen, if_neg hc] at h
      simp [hasGt, hc, gtLen_none_hasGt rest _ h]

lemma mem_stripTagsAux {x : Char} :
    ∀ (l : List Char) (k : Nat), x ∈ stripTagsAux k l → x ∈ l := by
  intro l
  induction l with
  | nil => intro k h; simp [stripTagsAux] at h
  | cons c rest ih =>
    intro k h
    match k with
    | k + 1 =>
      simp only [stripTagsAux] at h
      exact List.mem_cons_of_mem _ (ih _ h)
    | 0 =>
      simp only [stripTagsAux] at h
      by_cases hc : c = '<'
      · rw [if_pos hc] at h
        cases hft : findTagLen rest with
        | some n => rw [hft] at h; exact List.mem_cons_of_mem _ (ih _ h)
        | none =>
          rw [hft] at h
          rcases List.mem_cons.mp h with rfl | h'
          · exact List.mem_cons_self _ _
          · exact List.mem_cons_of_mem _ (ih _ h')
      · rw [if_neg hc] at h
        rcases List.mem_cons.mp h with rfl | h'
        · exact List.mem_cons_self _ _
        · exact List.mem_cons_of_mem _ (ih _ h')

lemma hasGt_eq_false_of_subset {l₂ l₁ : List Char}
    (hsub : ∀ x ∈ l₁, x ∈ l₂) (h : hasGt l₂ = false) : hasGt l₁ = false :=
  hasGt_eq_false_iff.mpr (fun hm => hasGt_eq_false_iff.mp h (hsub _ hm))

lemma goodB_cons_iff {c : Char} {l : List Char} :
    goodB (c :: l) = true ↔
      ((c = '<' → (headIsGt l || !hasGt l) = true) ∧ goodB l = true) := by
  by_cases hc : c = '<' <;> simp [goodB, hc]

lemma goodB_stripTagsAux : ∀ (l : List Char) (k : Nat),
    goodB (stripTagsAux k l) = true := by
  intro l
  induction l with
  | nil => intro k; simp [stripTagsAux, goodB]
  | cons c rest ih =>
    intro k
    match k with
    | k + 1 => simpa only [stripTagsAux] using ih k
    | 0 =>
      simp only [stripTagsAux]
      by_cases hc : c = '<'
      · rw [if_pos hc]
        cases hft : findTagLen rest with
        | some n => exact ih n
        | none =>
          rw [goodB_cons_iff]
          refine ⟨fun _ => ?_, ih 0⟩
          rcases findTagLen_none_cases hft with hrest | hrest | hrest
          · subst hrest
            simp [stripTagsAux, headIsGt, hasGt]
          · cases rest with
            | nil => simp [headIsGt] at hrest
            | cons d r =>
              have hd : d = '>' := by simpa [headIsGt] using hrest
              subst hd
              simp [stripTagsAux, headIsGt]
          · have : hasGt (stripTagsAux 0 rest) = false :=
              hasGt_eq_false_of_subset (fun x hx => mem_stripTagsAux _ _ hx) hrest
            simp [this]
      · rw [if_neg hc, goodB_cons_iff]
        exact ⟨fun h => absurd h hc, ih 0⟩

lemma stripTagsAux_fix {l : List Char} (h : goodB l = true) :
    stripTagsAux 0 l = l := by
  induction l with
  | nil => rfl
  | cons c rest ih =>
    rw [goodB_cons_iff] at h
    simp only [stripTagsAux]
    by_cases hc : c = '<'
    · rw [if_pos hc]
      have hcond := h.1 hc
      have hft : findTagLen rest = none := by
        rcases Bool.or_eq_true_iff.mp hcond with hg | hg
        · cases rest with
          | nil => simp [headIsGt] at hg
          | cons d r =>
            have hd : d = '>' := by simpa [headIsGt] using hg
            subst hd
            simp [findTagLen]
        · exact findTagLen_of_nogt (by simpa using hg)
      rw [hft, ih h.2]
    · rw [if_neg hc, ih h.2]

lemma mem_collapseWsAux {x : Char} :
    ∀ (l : List Char) (b : Bool), x ∈ collapseWsAux b l → x = ' ' ∨ x ∈ l := by
  intro l
  induction l with
  | nil => intro b h; simp [collapseWsAux] at h
  | cons c rest ih =>
    intro b h
    simp only [collapseWsAux] at h
    by_cases hws : isPySpace c = true
    · rw [if_pos hws] at h
      cases b with
      | true =>
        simp only [if_pos rfl] at h
        rcases ih _ h with h' | h' <;> simp [h']
      | false =>
        simp only [Bool.false_eq_true, if_false] at h
        rcases List.mem_cons.mp h with rfl | h'
        · exact Or.inl rfl
        · rcases ih _ h' with h'' | h'' <;> simp [h'']
    · rw [if_neg hws] at h
      rcases List.mem_cons.mp h with rfl | h'
      · simp
      · rcases ih _ h' with h'' | h'' <;> simp [h'']

lemma hasGt_collapseWsAux {l : List Char} (h : hasGt l = false) (b : Bool) :
    hasGt (collapseWsAux b l) = false := by
  rw [hasGt_eq_false_iff] at h ⊢
  intro hm
  rcases mem_collapseWsAux _ _ hm with h' | h'
  · exact absurd h' (by decide)
  · exact h h'

lemma goodB_collapseWsAux :
    ∀ (l : List Char) (b : Bool), goodB l = true → goodB (collapseWsAux b l) = true := by
  intro l
  induction l with
  | nil => intro b _; simp [collapseWsAux, goodB]
  | cons c rest ih =>
    intro b h
    rw [goodB_cons_iff] at h
    simp only [collapseWsAux]
    by_cases hws : isPySpace c = true
    · rw [if_pos hws]
      cases b with
      | true => simpa using ih true h.2
      | false =>
        simp only [Bool.false_eq_true, if_false]
        rw [goodB_cons_iff]
        exact ⟨fun hlt => absurd hlt (by decide), ih true h.2⟩
    · rw [if_neg hws, goodB_cons_iff]
      refine ⟨fun hc => ?_, ih false h.2⟩
      rcases Bool.or_eq_true_iff.mp (h.1 hc) with hg | hg
      · cases rest with
        | nil => simp [headIsGt] at hg
        | cons d r =>
          have hd : d = '>' := by simpa [headIsGt] using hg
          subst hd
          have : isPySpace '>' = false := by decide
          simp [collapseWsAux, this, headIsGt]
      · simp [hasGt_collapseWsAux (by simpa using hg)]

lemma wsBlank_collapseWsAux {x : Char} :
    ∀ (l : List Char) (b : Bool),
      x ∈ collapseWsAux b l → isPySpace x = true → x = ' ' := by
  intro l
  induction l with
  | nil => intro b h _; simp [collapseWsAux] at h
  | cons c rest ih =>
    intro b h hx
    simp only [collapseWsAux] at h
    by_cases hws : isPySpace c = true
    · rw [if_pos hws] at h
      cases b with
      | true =>
        simp only [if_pos rfl] at h
        exact ih _ h hx
      | false =>
        simp only [Bool.false_eq_true, if_false] at h
        rcases List.mem_cons.mp h with rfl | h'
        · rfl
        · exact ih _ h' hx
    · rw [if_neg hws] at h
      rcases List.mem_cons.mp h with rfl | h'
      · exact absurd hx (by simp [hws])
      · exact ih _ h' hx

lemma headNotWs_collapseWsAux_true :
    ∀ l : List Char, headNotWs (collapseWsAux true l) = true := by
  intro l
  induction l with
  | nil => rfl
  | cons c rest ih =>
    simp only [collapseWsAux]
    by_cases hws : isPySpace c = true
    · simpa [hws] using ih
    · simp [hws, headNotWs]

lemma noAdjWs_cons_of {c : Char} {l : List Char}
    (h1 : isPySpace c = false ∨ headNotWs l = true) (h2 : noAdjWs l = true) :
    noAdjWs (c :: l) = true := by
  cases l with
  | nil => rfl
  | cons d r =>
    have hd : isPySpace c = false ∨ isPySpace d = false := by
      rcases h1 with h | h
      · exact Or.inl h
      · exact Or.inr (by simpa [headNotWs] using h)
    simp only [noAdjWs, Bool.and_eq_true]
    rcases hd with h | h <;> simp [h, h2]

lemma noAdjWs_collapseWsAux :
    ∀ (l : List Char) (b : Bool), noAdjWs (collapseWsAux b l) = true := by
  intro l
  induction l with
  | nil => intro b; rfl
  | cons c rest ih =>
    intro b
    simp only [collapseWsAux]
    by_cases hws : isPySpace c = true
    · rw [if_pos hws]
      cases b with
      | true => simpa using ih true
      | false =>
        simp only [Bool.false_eq_true, if_false]
        exact noAdjWs_cons_of (Or.inr (headNotWs_collapseWsAux_true rest)) (ih true)
    · rw [if_neg hws]
      exact noAdjWs_cons_of (Or.inl (by simpa using hws)) (ih false)

lemma noAdjWs_cons_cons_iff {a b : Char} {r : List Char} :
    noAdjWs (a :: b :: r) = true ↔
      ((isPySpace a = false ∨ isPySpace b = false) ∧ noAdjWs (b :: r) = true) := by
  cases ha : isPySpace a <;> cases hb : isPySpace b <;> simp [noAdjWs, ha, hb]

lemma noAdjWs_tail {c : Char} {l : List Char} (h : noAdjWs (c :: l) = true) :
    noAdjWs l = true := by
  cases l with
  | nil => rfl
  | cons d r => exact (noAdjWs_cons_cons_iff.mp h).2

lemma collapseWsAux_fix :
    ∀ l : List Char, (∀ x ∈ l, isPySpace x = true → x = ' ') → noAdjWs l = true →
      collapseWsAux false l = l ∧
        (headNotWs l = true → collapseWsAux true l = l) := by
  intro l
  induction l with
  | nil => intro _ _; exact ⟨rfl, fun _ => rfl⟩
  | cons c rest ih =>
    intro hws hadj
    have hws' : ∀ x ∈ rest, isPySpace x = true → x = ' ' :=
      fun x hx => hws x (List.mem_cons_of_mem _ hx)
    have ihr := ih hws' (noAdjWs_tail hadj)
    by_cases hc : isPySpace c = true
    · have hcsp : c = ' ' := hws c (List.mem_cons_self _ _) hc
      have hrest : collapseWsAux true rest = rest := by
        cases rest with
        | nil => rfl
        | cons d r =>
          have hd : isPySpace d = false := by
            rcases (noAdjWs_cons_cons_iff.mp hadj).1 with h | h
            · exact absurd hc (by simp [h])
            · exact h
          exact ihr.2 (by simp [headNotWs, hd])
      constructor
      · have hsp : isPySpace ' ' = true := by decide
        simp [collapseWsAux, hc, hrest, hcsp, hsp]
      · intro hhd
        exact absurd (by simpa [headNotWs] using hhd) (by simp [hc])
    · constructor
      · simp [collapseWsAux, hc, ihr.1]
      · intro _
        simp [collapseWsAux, hc, ihr.1]

lemma mem_dropWhile {x : Char} {p : Char → Bool} :
    ∀ l : List Char, x ∈ l.dropWhile p → x ∈ l := by
  intro l
  induction l with
  | nil => intro h; simp at h
  | cons c rest ih =>
    intro h
    rw [List.dropWhile_cons] at h
    by_cases hc : p c = true
    · rw [if_pos hc] at h
      exact List.mem_cons_of_mem _ (ih h)
    · rw [if_neg hc] at h
      exact h

lemma goodB_dropWhile {p : Char → Bool} :
    ∀ l : List Char, goodB l = true → goodB (l.dropWhile p) = true := by
  intro l
  induction l with
  | nil => intro _; rfl
  | cons c rest ih =>
    intro h
    rw [goodB_cons_iff] at h
    rw [List.dropWhile_cons]
    by_cases hc : p c = true
    · rw [if_pos hc]; exact ih h.2
    · rw [if_neg hc, goodB_cons_iff]; exact h

lemma noAdjWs_dropWhile {p : Char → Bool} :
    ∀ l : List Char, noAdjWs l = true → noAdjWs (l.dropWhile p) = true := by
  intro l
  induction l with
  | nil => intro _; rfl
  | cons c rest ih =>
    intro h
    rw [List.dropWhile_cons]
    by_cases hc : p c = true
    · rw [if_pos hc]; exact ih (noAdjWs_tail h)
    · rw [if_neg hc]; exact h

lemma headNotWs_dropWhile :
    ∀ l : List Char, headNotWs (l.dropWhile isPySpace) = true := by
  intro l
  induction l with
  | nil => rfl
  | cons c rest ih =>
    rw [List.dropWhile_cons]
    by_cases hc : isPySpace c = true
    · rw [if_pos hc]; exact ih
    · rw [if_neg hc]; simpa [headNotWs] using hc

lemma mem_trimRight {x : Char} :
    ∀ l : List Char, x ∈ trimRight l → x ∈ l := by
  intro l
  induction l with
  | nil => intro h; simp [trimRight] at h
  | cons c rest ih =>
    intro h
    simp only [trimRight] at h
    by_cases hc : isPySpace c = true
    · rw [if_pos hc] at h
      cases htr : trimRight rest with
      | nil => rw [htr] at h; simp at h
      | cons d r =>
        rw [htr] at h
        rcases List.mem_cons.mp h with rfl | h'
        · exact List.mem_cons_self _ _
        · exact List.mem_cons_of_mem _ (ih (htr ▸ h'))
    · rw [if_neg hc] at h
      rcases List.mem_cons.mp h with rfl | h'
      · exact List.mem_cons_self _ _
      · exact List.mem_cons_of_mem _ (ih h')

lemma goodB_trimRight :
    ∀ l : List Char, goodB l = true → goodB (trimRight l) = true := by
  intro l
  induction l with
  | nil => intro _; rfl
  | cons c rest ih =>
    intro h
    rw [goodB_cons_iff] at h
    simp only [trimRight]
    by_cases hc : isPySpace c = true
    · rw [if_pos hc]
      cases htr : trimRight rest with
      | nil => rfl
      | cons d r =>
        rw [goodB_cons_iff]
        constructor
        · intro hlt
          exact absurd hc (by simp [hlt]; decide)
        · exact htr ▸ ih h.2
    · rw [if_neg hc, goodB_cons_iff]
      refine ⟨fun hlt => ?_, ih h.2⟩
      rcases Bool.or_eq_true_iff.mp (h.1 hlt) with hg | hg
      · cases rest with
        | nil => simp [headIsGt] at hg
        | cons d r =>
          have hd : d = '>' := by simpa [headIsGt] using hg
          subst hd
          have hgtws : isPySpace '>' = false := by decide
          simp [trimRight, hgtws, headIsGt]
      · have : hasGt (trimRight rest) = false :=
          hasGt_eq_false_of_subset (fun x hx => mem_trimRight _ hx) (by simpa using hg)
        simp [this]

lemma noAdjWs_trimRight :
    ∀ l : List Char, noAdjWs l = true → noAdjWs (trimRight l) = true := by
  intro l
  induction l with
  | nil => intro _; rfl
  | cons c rest ih =>
    intro h
    simp only [trimRight]
    by_cases hc : isPySpace c = true
    · rw [if_pos hc]
      cases rest with
      | nil => simp [trimRight, noAdjWs]
      | cons e r =>
        have he : isPySpace e = false := by
          rcases (noAdjWs_cons_cons_iff.mp h).1 with h' | h'
          · exact absurd hc (by simp [h'])
          · exact h'
        have htr : trimRight (e :: r) = e :: trimRight r := by
          simp [trimRight, he]
        rw [htr]
        have : noAdjWs (e :: trimRight r) = true := htr ▸ ih (noAdjWs_tail h)
        exact noAdjWs_cons_cons_iff.mpr ⟨Or.inr he, this⟩
    · rw [if_neg hc]
      cases htr : trimRight rest with
      | nil => rfl
      | cons d r =>
        refine noAdjWs_cons_cons_iff.mpr ⟨Or.inl (by simpa using hc), ?_⟩
        exact htr ▸ ih (noAdjWs_tail h)

lemma headNotWs_trimRight {l : List Char} (h : headNotWs l = true) :
    headNotWs (trimRight l) = true := by
  cases l with
  | nil => rfl
  | cons c rest =>
    have hc : isPySpace c = false := by simpa [headNotWs] using h
    simp [trimRight, hc, headNotWs]

lemma lastNotWs_trimRight : ∀ l : List Char, lastNotWs (trimRight l) = true := by
  intro l
  induction l with
  | nil => rfl
  | cons c rest ih =>
    simp only [trimRight]
    by_cases hc : isPySpace c = true
    · rw [if_pos hc]
      cases htr : trimRight rest with
      | nil => rfl
      | cons d r =>
        show lastNotWs (c :: d :: r) = true
        show lastNotWs (d :: r) = true
        exact htr ▸ ih
    · rw [if_neg hc]
      cases htr : trimRight rest with
      | nil => simpa [lastNotWs] using hc
      | cons d r =>
        show lastNotWs (c :: d :: r) = true
        show lastNotWs (d :: r) = true
        exact htr ▸ ih

lemma trimRight_cons (c : Char) (rest : List Char) :
    trimRight (c :: rest) =
      if isPySpace c = true then
        (match trimRight rest with | [] => [] | d :: r => c :: d :: r)
      else c :: trimRight rest := rfl

lemma trimRight_fix : ∀ l : List Char, lastNotWs l = true → trimRight l = l := by
  intro l
  induction l with
  | nil => intro _; rfl
  | cons c rest ih =>
    intro h
    cases rest with
    | nil =>
      have hc : isPySpace c = false := by simpa [lastNotWs] using h
      simp [trimRight, hc]
    | cons d r =>
      have hrest : trimRight (d :: r) = d :: r := ih (by simpa [lastNotWs] using h)
      rw [trimRight_cons, hrest]
      by_cases hc : isPySpace c = true
      · rw [if_pos hc]
      · rw [if_neg hc]

lemma dropWhile_fix {l : List Char} (h : headNotWs l = true) :
    l.dropWhile isPySpace = l := by
  cases l with
  | nil => rfl
  | cons c rest =>
    have hc : isPySpace c = false := by simpa [headNotWs] using h
    simp [List.dropWhile_cons, hc]

lemma trim_fix {l : List Char} (h1 : headNotWs l = true) (h2 : lastNotWs l = true) :
    trim l = l := by
  rw [trim, dropWhile_fix h1, trimRight_fix l h2]

/-- Claim C9: `clean_text` is an idempotent, pure, total function:
stripping HTML-tag-like substrings, collapsing whitespace runs to one
space, and trimming both ends, applied twice, equals one application. -/
theorem C9_clean_text_idempotent (l : List Char) :
    clean_text (clean_text l) = clean_text l := by
  have hgood : goodB (clean_text l) = true := by
    rw [clean_text, trim, collapseWs]
    exact goodB_trimRight _
      (goodB_dropWhile _ (goodB_collapseWsAux _ _ (goodB_stripTagsAux _ 0)))
  have hws : ∀ x ∈ clean_text l, isPySpace x = true → x = ' ' := by
    intro x hx
    rw [clean_text, trim, collapseWs] at hx
    exact wsBlank_collapseWsAux _ _ (mem_dropWhile _ (mem_trimRight _ hx))
  have hnoadj : noAdjWs (clean_text l) = true := by
    rw [clean_text, trim, collapseWs]
    exact noAdjWs_trimRight _ (noAdjWs_dropWhile _ (noAdjWs_collapseWsAux _ _))
  have hhead : headNotWs (clean_text l) = true := by
    rw [clean_text, trim]
    exact headNotWs_trimRight (headNotWs_dropWhile _)
  have hlast : lastNotWs (clean_text l) = true := by
    rw [clean_text, trim]
    exact lastNotWs_trimRight _
  calc clean_text (clean_text l)
      = trim (collapseWs (stripTags (clean_text l))) := rfl
    _ = trim (collapseWs (clean_text l)) := by
        rw [stripTags, stripTagsAux_fix hgood]
    _ = trim (clean_text l) := by
        rw [collapseWs, (collapseWsAux_fix _ hws hnoadj).1]
    _ = clean_text l := trim_fix hhead hlast

/-! ### `post_process_dates` (src/utils.py lines 84-103) -/

/-- The DOB context keywords of `post_process_dates`. -/
def dob_keywords : List (List Char) :=
  [String.toList "born", String.toList "birth", String.toList "dob",
   String.toList "date of birth"]

/-- The expiry context keywords of `post_process_dates`. -/
def expiry_keywords : List (List Char) :=
  [String.toList "expiry", String.toList "exp", String.toList "expires",
   String.toList "valid until", String.toList "valid till"]

/-- The lower-cased ±30-character context window
`text[max(0, start - 30) : min(len(text), end + 30)].lower()` around a span. -/
def dateSnippet (text : List Char) (s e : Int) : List Char :=
  lower (slice text (s - 30).toNat (min (text.length : Int) (e + 30)).toNat)

/-- `post_process_dates` from src/utils.py lines 84-103: for candidates
typed DOB or EXPIRY_NO, force DOB if a DOB keyword occurs in the context
window, else force EXPIRY_NO if an expiry keyword occurs, else keep the
type; all other candidates, and all other fields, are untouched. -/
def post_process_dates (text : List Char) (entities : List Entity) : List Entity :=
  entities.map (fun e =>
    if e.entity_type = "DOB" ∨ e.entity_type = "EXPIRY_NO" then
      if dob_keywords.any (fun k => containsSub k (dateSnippet text e.start e.«end»)) then
        { e with entity_type := "DOB" }
      else if expiry_keywords.any
          (fun k => containsSub k (dateSnippet text e.start e.«end»)) then
        { e with entity_type := "EXPIRY_NO" }
      else e
    else e)

/-- Claim C6: the date reclassifier changes at most the `entity_type`
field: spans, scores, substrings and contexts are untouched, and a
candidate whose type is neither DOB nor EXPIRY_NO is returned entirely
unchanged. -/
theorem C6_date_reclassifier_frame (text : List Char) (l : List Entity) :
    List.Forall₂
      (fun a b => b.start = a.start ∧ b.«end» = a.«end» ∧ b.score = a.score ∧
        b.entity = a.entity ∧ b.context = a.context ∧
        (a.entity_type ≠ "DOB" ∧ a.entity_type ≠ "EXPIRY_NO" → b = a))
      l (post_process_dates text l) := by
  induction l with
  | nil => exact List.Forall₂.nil
  | cons e rest ih =>
    refine List.Forall₂.cons ?_ ih
    by_cases h : e.entity_type = "DOB" ∨ e.entity_type = "EXPIRY_NO"
    · simp only [post_process_dates, List.map_cons, if_pos h]
      split_ifs <;>
        exact ⟨by simp, by simp, by simp, by simp, by simp,
          fun hn => absurd h (by tauto)⟩
    · simp only [post_process_dates, List.map_cons, if_neg h]
      exact ⟨by simp, by simp, by simp, by simp, by simp, fun _ => by simp⟩

/-- Claim C5: for a candidate typed DOB or EXPIRY_NO the reclassifier
extracts the ±30-character lower-cased window, tests the DOB keywords
first (forcing DOB), then the expiry keywords (forcing EXPIRY_NO), else
keeps the original type; concretely, on `"DOB: 01-02-1990"` the date span
resolves to DOB whichever of the two types it started with, and on
`"Expires: 01/02/25"` the date span resolves to EXPIRY_NO. -/
theorem C5_date_reclassifier_keywords :
    (∀ (text : List Char) (e : Entity),
      e.entity_type = "DOB" ∨ e.entity_type = "EXPIRY_NO" →
      (post_process_dates text [e]).map Entity.entity_type =
        [if dob_keywords.any
            (fun k => containsSub k (dateSnippet text e.start e.«end»)) then "DOB"
         else if expiry_keywords.any
            (fun k => containsSub k (dateSnippet text e.start e.«end»)) then "EXPIRY_NO"
         else e.entity_type]) ∧
    (post_process_dates (String.toList "DOB: 01-02-1990")
        [⟨"DOB", 5, 15, String.toList "01-02-1990", score09, none⟩]).map
        Entity.entity_type = ["DOB"] ∧
    (post_process_dates (String.toList "DOB: 01-02-1990")
        [⟨"EXPIRY_NO", 5, 15, String.toList "01-02-1990", score08, none⟩]).map
        Entity.entity_type = ["DOB"] ∧
    (post_process_dates (String.toList "Expires: 01/02/25")
        [⟨"EXPIRY_NO", 9, 14, String.toList "01/02", score08, none⟩]).map
        Entity.entity_type = ["EXPIRY_NO"] := by
  refine ⟨fun text e h => ?_, by decide, by decide, by decide⟩
  simp only [post_process_dates, List.map_cons, List.map_nil, if_pos h]
  split_ifs <;> rfl

/-- Witness: `C5_date_reclassifier_keywords` applied to a concrete
candidate whose window has no keyword of either set, so the original type
is kept. -/
theorem C5_date_reclassifier_keywords_witness :
    (post_process_dates (String.toList "on 01-02-1990")
        [⟨"DOB", 3, 13, String.toList "01-02-1990", score09, none⟩]).map
        Entity.entity_type = ["DOB"] :=
  (C5_date_reclassifier_keywords.1 (String.toList "on 01-02-1990")
    ⟨"DOB", 3, 13, String.toList "01-02-1990", score09, none⟩
    (Or.inl rfl)).trans (by decide)

/-! ### `detect_cvv_from_context` (src/utils.py lines 140-240)

Pass 1 scans, for each keyword phrase, for
`(?i){keyword}[\s:,\-]*(\d{3,4})` and emits a 0.9-confidence candidate for
the digit group when no false-positive word occurs in the ±20-character
window around the whole match.  A keyword phrase is a list of literal
lower-case words joined by `\s+`; since the separator class and the digit
class are disjoint and the pattern has no trailing context, the regex is
realised exactly by maximal-munch scanning.  Pass 2 scans for standalone
`\b(\d{3,4})\b` tokens, gates them on card vocabulary and negative
patterns in a ±50-character window, deduplicates against every candidate
emitted so far by exact span equality, and appends with confidence 0.7. -/

/-- Match one literal (already lower-case) word at the front of the text,
case-insensitively. -/
def matchWordLen (w l : List Char) : Option Nat :=
  if lower (l.take w.length) = w then some w.length else none

/-- Match a keyword phrase — words joined by `\s+` — at the front of the
text; return the number of characters consumed. -/
def matchWords : List (List Char) → List Char → Option Nat
  | [], _ => some 0
  | [w], l => matchWordLen w l
  | w :: ws, l =>
    match matchWordLen w l with
    | none => none
    | some k =>
      let s := countWhile isPySpace (l.drop k)
      if s = 0 then none
      else (matchWords ws ((l.drop k).drop s)).map (fun m => k + s + m)

/-- The separator class `[\s:,\-]` between keyword and digits. -/
def isCvvSep (c : Char) : Bool := isPySpace c || c = ':' || c = ',' || c = '-'

/-- The CVV keyword phrases of pass 1, in source order. -/
def cvv_keywords : List (List (List Char)) :=
  [[String.toList "cvv"],
   [String.toList "cvc"],
   [String.toList "security", String.toList "code"],
   [String.toList "card", String.toList "verification"],
   [String.toList "verification", String.toList "code"],
   [String.toList "card", String.toList "security", String.toList "code"],
   [String.toList "three", String.toList "digit", String.toList "code"],
   [String.toList "four", String.toList "digit", String.toList "code"]]

/-- The false-positive words checked in the pass-1 context window. -/
def false_positive_keywords : List (List Char) :=
  [String.toList "year", String.toList "date", String.toList "phone",
   String.toList "zip", String.toList "postal", String.toList "age",
   String.toList "quantity", String.toList "amount", String.toList "price"]

/-- `text[max(0, a - 20) : min(len(text), b + 20)].lower()`. -/
def cvvCtx (text : List Char) (a b : Nat) : List Char :=
  lower (slice text (a - 20) (b + 20))

/-- No false-positive word occurs in the window. -/
def fpFree (ctx : List Char) : Bool :=
  !(false_positive_keywords.any (fun w => containsSub w ctx))

/-- Match `{keyword}[\s:,\-]*(\d{3,4})` at the front of the text; return
the offset of the digit group and its length (3, or 4 when four or more
digits follow). -/
def matchCvvKwAt (kw : List (List Char)) (l : List Char) : Option (Nat × Nat) :=
  match matchWords kw l with
  | none => none
  | some k =>
    let s := countWhile isCvvSep (l.drop k)
    let d := countWhile Char.isDigit (l.drop (k + s))
    if 3 ≤ d then some (k + s, min d 4) else none

/-- `re.finditer` of one pass-1 pattern: `i` is the absolute position of
the head of `l` in `text`, and the skip counter implements continuing at
the end of an accepted match. -/
def cvvKwScanAux (text : List Char) (kw : List (List Char)) :
    Nat → Nat → List Char → List Entity
  | _, _, [] => []
  | skip + 1, i, _ :: rest => cvvKwScanAux text kw skip (i + 1) rest
  | 0, i, c :: rest =>
    match matchCvvKwAt kw (c :: rest) with
    | some (doff, dlen) =>
      (if fpFree (cvvCtx text i (i + doff + dlen)) then
        [⟨"CVV_NO", (i + doff : Nat), (i + doff + dlen : Nat),
          slice text (i + doff) (i + doff + dlen), score09,
          some (trim (cvvCtx text i (i + doff + dlen)))⟩]
      else []) ++ cvvKwScanAux text kw (doff + dlen - 1) (i + 1) rest
    | none => cvvKwScanAux text kw 0 (i + 1) rest

/-- The keyword-anchored pass of `detect_cvv_from_context`: one full scan
per keyword phrase, in source order. -/
def cvvKeywordPass (text : List Char) : List Entity :=
  (cvv_keywords.map (fun kw => cvvKwScanAux text kw 0 0 text)).flatten

/-- The card-vocabulary words of pass 2. -/
def card_keywords : List (List Char) :=
  [String.toList "card", String.toList "credit", String.toList "debit",
   String.toList "payment", String.toList "expire", String.toList "expiry",
   String.toList "valid"]

/-- `re.search(rf"\b{keyword}\b", context)`: the word occurs somewhere in
the context delimited by word boundaries.  The Boolean argument records
whether the previous character was a word character. -/
def searchWordAux (w : List Char) : Bool → List Char → Bool
  | _, [] => false
  | prevW, c :: rest =>
    (!prevW && decide ((c :: rest).take w.length = w) &&
      nonWordHead ((c :: rest).drop w.length))
    || searchWordAux w (isWordChar c) rest

/-- Whole-word search starting at a word boundary. -/
def searchWord (w ctx : List Char) : Bool := searchWordAux w false ctx

/-- Four digits, a dash or slash, two digits, a dash or slash, then at
least two digits, matching at the front of the list (the ISO-like date
pattern of pass 2). -/
def dateLikeAt : List Char → Bool
  | a :: b :: c :: d :: s1 :: e :: f :: s2 :: g :: h :: _ =>
    a.isDigit && b.isDigit && c.isDigit && d.isDigit && (s1 = '-' || s1 = '/') &&
      e.isDigit && f.isDigit && (s2 = '-' || s2 = '/') && g.isDigit && h.isDigit
  | _ => false

/-- Search the ISO-like date pattern anywhere in the list. -/
def searchDateLike : List Char → Bool
  | [] => false
  | c :: rest => dateLikeAt (c :: rest) || searchDateLike rest

/-- `\$\d+` matches at the front of the list. -/
def dollarAt : List Char → Bool
  | a :: b :: _ => a = '$' && b.isDigit
  | _ => false

/-- `re.search(r"\$\d+", ·)`. -/
def searchDollar : List Char → Bool
  | [] => false
  | c :: rest => dollarAt (c :: rest) || searchDollar rest

/-- Consume exactly four digits. -/
def take4Digits : List Char → Option (List Char)
  | a :: b :: c :: d :: rest =>
    if a.isDigit && b.isDigit && c.isDigit && d.isDigit then some rest else none
  | _ => none

/-- `\d{4}\s*\d{4}\s*\d{4}\s*\d{4}` matches at the front of the list. -/
def sixteenAt (l : List Char) : Bool :=
  match take4Digits l with
  | none => false
  | some r1 =>
    match take4Digits (r1.dropWhile isPySpace) with
    | none => false
    | some r2 =>
      match take4Digits (r2.dropWhile isPySpace) with
      | none => false
      | some r3 => (take4Digits (r3.dropWhile isPySpace)).isSome

/-- `re.search(r"\d{4}\s*\d{4}\s*\d{4}\s*\d{4}", ·)`. -/
def search16 : List Char → Bool
  | [] => false
  | c :: rest => sixteenAt (c :: rest) || search16 rest

/-- Match `\b(\d{3,4})\b` at the current position: the previous character
(if any) is not a word character, and the maximal digit run here has
length exactly 3 or 4 and is followed by a non-word character or the end
(`\d{3,4}` is greedy, and a longer run fails both the 4- and the
backtracked 3-digit boundary checks). -/
def proxMatchAt (prevW : Bool) (l : List Char) : Option Nat :=
  if prevW then none
  else
    let d := countWhile Char.isDigit l
    if d = 3 && nonWordHead (l.drop 3) then some 3
    else if d = 4 && nonWordHead (l.drop 4) then some 4
    else none

/-- `text[max(0, a - 50) : min(len(text), b + 50)].lower()`. -/
def cvvProxCtx (text : List Char) (a b : Nat) : List Char :=
  lower (slice text (a - 50) (b + 50))

/-- The proximity pass of `detect_cvv_from_context`: scan every standalone
3-or-4-digit token; require a card keyword as a whole word in the
±50-character window and none of the negative patterns (an ISO-like date,
a dollar amount, a 16-digit grouped number); skip candidates whose exact
span is already present in the accumulated list; append with confidence
0.7.  `acc` starts as the full pass-1 output, exactly like the single
`cvv_entities` list of the source. -/
def cvvProxScanAux (text : List Char) :
    Nat → Bool → Nat → List Char → List Entity → List Entity
  | _, _, _, [], acc => acc
  | skip + 1, _, i, c :: rest, acc =>
    cvvProxScanAux text skip (isWordChar c) (i + 1) rest acc
  | 0, prevW, i, c :: rest, acc =>
    match proxMatchAt prevW (c :: rest) with
    | some d =>
      cvvProxScanAux text (d - 1) (isWordChar c) (i + 1) rest
        (if (card_keywords.any (fun w => searchWord w (cvvProxCtx text i (i + d)))
              && !searchDateLike (cvvProxCtx text i (i + d))
              && !searchDollar (cvvProxCtx text i (i + d))
              && !search16 (cvvProxCtx text i (i + d)))
            && !(acc.any (fun x =>
                  x.start == (i : Int) && x.«end» == ((i + d : Nat) : Int))) then
          acc ++ [⟨"CVV_NO", (i : Nat), (i + d : Nat), slice text i (i + d),
            score07, some (trim (cvvProxCtx text i (i + d)))⟩]
        else acc)
    | none => cvvProxScanAux text 0 (isWordChar c) (i + 1) rest acc

/-- `detect_cvv_from_context` from src/utils.py lines 140-240: the
keyword-anchored pass followed by the proximity pass appending into the
same candidate list. -/
def detect_cvv_from_context (text : List Char) : List Entity :=
  cvvProxScanAux text 0 false 0 text (cvvKeywordPass text)

lemma drop_succ_of_drop {text l : List Char} {i : Nat} {c : Char}
    (h : text.drop i = c :: l) : text.drop (i + 1) = l := by
  rw [← List.drop_drop, h]
  rfl

lemma drop_add_of_drop {text l : List Char} {i : Nat}
    (h : text.drop i = l) (n : Nat) : text.drop (i + n) = l.drop n := by
  rw [← List.drop_drop, h]

lemma countWhile_take_all {p : Char → Bool} :
    ∀ (l : List Char) (k : Nat), k ≤ countWhile p l → (l.take k).all p = true := by
  intro l
  induction l with
  | nil =>
    intro k hk
    simp only [countWhile, Nat.le_zero] at hk
    simp [hk]
  | cons c rest ih =>
    intro k hk
    simp only [countWhile] at hk
    by_cases hc : p c = true
    · rw [if_pos hc] at hk
      cases k with
      | zero => simp
      | succ k' =>
        simp only [List.take_succ_cons, List.all_cons, hc, Bool.true_and]
        exact ih k' (Nat.succ_le_succ_iff.mp hk)
    · rw [if_neg hc] at hk
      interval_cases k
      simp

lemma matchCvvKwAt_some {kw : List (List Char)} {l : List Char} {doff dlen : Nat}
    (h : matchCvvKwAt kw l = some (doff, dlen)) :
    (dlen = 3 ∨ dlen = 4) ∧ dlen ≤ countWhile Char.isDigit (l.drop doff) := by
  simp only [matchCvvKwAt] at h
  cases hmw : matchWords kw l with
  | none => rw [hmw] at h; simp at h
  | some k =>
    rw [hmw] at h
    dsimp only at h
    split_ifs at h with h3
    · simp only [Option.some.injEq, Prod.mk.injEq] at h
      obtain ⟨h1, h2⟩ := h
      subst h1
      subst h2
      refine ⟨?_, Nat.min_le_left _ _⟩
      rcases Nat.le_total
          (countWhile Char.isDigit (l.drop (k + countWhile isCvvSep (l.drop k)))) 4
        with h4 | h4
      · have h5 := Nat.min_eq_left h4
        omega
      · right
        exact Nat.min_eq_right h4

/-- Everything the keyword-anchored pass guarantees about a candidate it
emits: type CVV_NO, confidence 0.9, a span covering exactly a 3-or-4-digit
group whose text is the recorded substring, and a false-positive-free
±20-character window around the match (which starts at some `ms ≤` the
digit start). -/
def KwCandOk (text : List Char) (c : Entity) : Prop :=
  c.entity_type = "CVV_NO" ∧ c.score = score09 ∧
  ∃ ms ds dl : Nat, ms ≤ ds ∧ c.start = (ds : Int) ∧ c.«end» = ((ds + dl : Nat) : Int) ∧
    (dl = 3 ∨ dl = 4) ∧ c.entity = slice text ds (ds + dl) ∧
    (slice text ds (ds + dl)).all Char.isDigit = true ∧
    fpFree (cvvCtx text ms (ds + dl)) = true ∧
    c.context = some (trim (cvvCtx text ms (ds + dl)))

lemma cvvKwScanAux_mem (text : List Char) (kw : List (List Char)) :
    ∀ (l : List Char) (skip i : Nat), text.drop i = l →
      ∀ c ∈ cvvKwScanAux text kw skip i l, KwCandOk text c := by
  intro l
  induction l with
  | nil => intro skip i _ c hc; simp [cvvKwScanAux] at hc
  | cons ch rest ih =>
    intro skip i hdrop c hc
    have hdrop' : text.drop (i + 1) = rest := drop_succ_of_drop hdrop
    match skip with
    | skip + 1 =>
      simp only [cvvKwScanAux] at hc
      exact ih skip (i + 1) hdrop' c hc
    | 0 =>
      simp only [cvvKwScanAux] at hc
      cases hm : matchCvvKwAt kw (ch :: rest) with
      | none => rw [hm] at hc; exact ih 0 (i + 1) hdrop' c hc
      | some pr =>
        obtain ⟨doff, dlen⟩ := pr
        rw [hm] at hc
        rw [List.mem_append] at hc
        rcases hc with hc | hc
        · by_cases hfp : fpFree (cvvCtx text i (i + doff + dlen)) = true
          · rw [if_pos hfp] at hc
            simp only [List.mem_singleton] at hc
            subst hc
            obtain ⟨h34, hdig⟩ := matchCvvKwAt_some hm
            refine ⟨rfl, rfl, i, i + doff, dlen, Nat.le_add_right i doff, rfl, rfl,
              h34, rfl, ?_, hfp, rfl⟩
            have hsl : slice text (i + doff) (i + doff + dlen)
                = ((ch :: rest).drop doff).take dlen := by
              rw [slice, Nat.add_sub_cancel_left, drop_add_of_drop hdrop doff]
            rw [hsl]
            exact countWhile_take_all _ _ hdig
          · rw [if_neg hfp] at hc
            simp at hc
        · exact ih _ (i + 1) hdrop' c hc

lemma cvvKeywordPass_mem {text : List Char} {c : Entity}
    (hc : c ∈ cvvKeywordPass text) : KwCandOk text c := by
  rw [cvvKeywordPass, List.mem_flatten] at hc
  obtain ⟨s, hs, hcs⟩ := hc
  rw [List.mem_map] at hs
  obtain ⟨kw, _, rfl⟩ := hs
  exact cvvKwScanAux_mem text kw text 0 0 rfl c hcs

/-- Claim C7: every candidate of the keyword-anchored CVV pass has type
CVV_NO, confidence 0.9, spans exactly the matched 3-or-4-digit group (its
`entity` is that all-digit substring of the text), and was emitted only
with a false-positive-free ±20-character window around the match; and on
input `"CVV: 123"` the whole contextual detector yields exactly one
candidate, type CVV_NO, entity `"123"`, confidence 0.9. -/
theorem C7_cvv_keyword_pass (text : List Char) (c : Entity)
    (hc : c ∈ cvvKeywordPass text) :
    (c.entity_type = "CVV_NO" ∧ c.score = score09 ∧
      ∃ ms ds dl : Nat, ms ≤ ds ∧ c.start = (ds : Int) ∧
        c.«end» = ((ds + dl : Nat) : Int) ∧ (dl = 3 ∨ dl = 4) ∧
        c.entity = slice text ds (ds + dl) ∧
        (slice text ds (ds + dl)).all Char.isDigit = true ∧
        fpFree (cvvCtx text ms (ds + dl)) = true) ∧
    detect_cvv_from_context (String.toList "CVV: 123")
      = [⟨"CVV_NO", 5, 8, String.toList "123", score09,
          some (String.toList "cvv: 123")⟩] := by
  obtain ⟨h1, h2, ms, ds, dl, hms, hst, hen, h34, hent, hdig, hfp, _⟩ :=
    cvvKeywordPass_mem hc
  exact ⟨⟨h1, h2, ms, ds, dl, hms, hst, hen, h34, hent, hdig, hfp⟩, by decide⟩

/-- Witness: `C7_cvv_keyword_pass` applied to the keyword-pass candidate
of the text `"CVV: 123"`. -/
theorem C7_cvv_keyword_pass_witness :
    (⟨"CVV_NO", 5, 8, String.toList "123", score09,
        some (String.toList "cvv: 123")⟩ : Entity).entity_type = "CVV_NO" ∧
    (⟨"CVV_NO", 5, 8, String.toList "123", score09,
        some (String.toList "cvv: 123")⟩ : Entity).score = score09 ∧
    ∃ ms ds dl : Nat, ms ≤ ds ∧
      (⟨"CVV_NO", 5, 8, String.toList "123", score09,
        some (String.toList "cvv: 123")⟩ : Entity).start = (ds : Int) ∧
      (⟨"CVV_NO", 5, 8, String.toList "123", score09,
        some (String.toList "cvv: 123")⟩ : Entity).«end» = ((ds + dl : Nat) : Int) ∧
      (dl = 3 ∨ dl = 4) ∧
      (⟨"CVV_NO", 5, 8, String.toList "123", score09,
        some (String.toList "cvv: 123")⟩ : Entity).entity
        = slice (String.toList "CVV: 123") ds (ds + dl) ∧
      (slice (String.toList "CVV: 123") ds (ds + dl)).all Char.isDigit = true ∧
      fpFree (cvvCtx (String.toList "CVV: 123") ms (ds + dl)) = true :=
  (C7_cvv_keyword_pass (String.toList "CVV: 123") _ (by decide)).1

/-- Span-distinctness as guaranteed by the dedup check of the proximity
pass: whenever the later element of a pair is a proximity candidate
(confidence 0.7), the two spans differ. -/
def ProxSpanDistinct (a b : Entity) : Prop :=
  b.score = score07 → ¬(a.start = b.start ∧ a.«end» = b.«end»)

lemma pairwise_proxSpanDistinct_of_no07 {l : List Entity}
    (h : ∀ b ∈ l, b.score ≠ score07) : List.Pairwise ProxSpanDistinct l := by
  induction l with
  | nil => exact List.Pairwise.nil
  | cons c rest ih =>
    refine List.Pairwise.cons ?_ (ih (fun b hb => h b (List.mem_cons_of_mem _ hb)))
    intro b hb h7
    exact absurd h7 (h b (List.mem_cons_of_mem _ hb))

lemma cvvProxScanAux_pairwise (text : List Char) :
    ∀ (l : List Char) (skip : Nat) (pw : Bool) (i : Nat) (acc : List Entity),
      List.Pairwise ProxSpanDistinct acc →
      (∀ a ∈ acc, a.score = score09 ∨ a.score = score07) →
      List.Pairwise ProxSpanDistinct (cvvProxScanAux text skip pw i l acc) ∧
      (∀ a ∈ cvvProxScanAux text skip pw i l acc,
        a.score = score09 ∨ a.score = score07) := by
  intro l
  induction l with
  | nil =>
    intro skip pw i acc h1 h2
    match skip with
    | 0 => exact ⟨h1, h2⟩
    | _ + 1 => exact ⟨h1, h2⟩
  | cons c rest ih =>
    intro skip pw i acc h1 h2
    match skip with
    | skip + 1 => exact ih skip (isWordChar c) (i + 1) acc h1 h2
    | 0 =>
      cases hm : proxMatchAt pw (c :: rest) with
      | none =>
        simp only [cvvProxScanAux, hm]
        exact ih 0 (isWordChar c) (i + 1) acc h1 h2
      | some d =>
        simp only [cvvProxScanAux, hm]
        set e : Entity :=
          ⟨"CVV_NO", (i : Nat), (i + d : Nat), slice text i (i + d),
            score07, some (trim (cvvProxCtx text i (i + d)))⟩ with he
        by_cases hlik :
            ((card_keywords.any (fun w => searchWord w (cvvProxCtx text i (i + d)))
                && !searchDateLike (cvvProxCtx text i (i + d))
                && !searchDollar (cvvProxCtx text i (i + d))
                && !search16 (cvvProxCtx text i (i + d)))
              && !(acc.any (fun x =>
                    x.start == (i : Int) && x.«end» == ((i + d : Nat) : Int)))) = true
        · rw [if_pos hlik]
          have hdup : ∀ a ∈ acc,
              ¬(a.start = (i : Int) ∧ a.«end» = ((i + d : Nat) : Int)) := by
            intro a ha hspan
            have hany := (Bool.and_eq_true_iff.mp hlik).2
            rw [Bool.not_eq_true', List.any_eq_false] at hany
            have := hany a ha
            rw [hspan.1, hspan.2] at this
            simp at this
          refine ih (d - 1) (isWordChar c) (i + 1) (acc ++ [e]) ?_ ?_
          · rw [List.pairwise_append]
            refine ⟨h1, by simp, ?_⟩
            intro a ha b hb
            rw [List.mem_singleton] at hb
            subst hb
            intro _
            exact hdup a ha
          · intro a ha
            rcases List.mem_append.mp ha with ha | ha
            · exact h2 a ha
            · rw [List.mem_singleton] at ha
              subst ha
              exact Or.inr rfl
        · rw [if_neg hlik]
          exact ih (d - 1) (isWordChar c) (i + 1) acc h1 h2

/-- Claim C4 (amended): exact-span deduplication protects only the
proximity pass: every 0.7-confidence (proximity) candidate in the output
of `detect_cvv_from_context` has a span distinct from every candidate
before it, and every candidate has confidence 0.9 or 0.7 — but two
keyword-pass candidates may share the identical span (see the
counterexample). -/
theorem C4_cvv_dedup_amended (text : List Char) :
    List.Pairwise ProxSpanDistinct (detect_cvv_from_context text) ∧
    (∀ a ∈ detect_cvv_from_context text,
      a.score = score09 ∨ a.score = score07) := by
  have hinit : ∀ b ∈ cvvKeywordPass text, b.score ≠ score07 := by
    intro b hb
    rw [(cvvKeywordPass_mem hb).2.1]
    decide
  exact cvvProxScanAux_pairwise text text 0 false 0 (cvvKeywordPass text)
    (pairwise_proxSpanDistinct_of_no07 hinit)
    (fun a ha => Or.inl (cvvKeywordPass_mem ha).2.1)

/-- Witness: `C4_cvv_dedup_amended` at the text of the counterexample. -/
theorem C4_cvv_dedup_amended_witness :
    List.Pairwise ProxSpanDistinct
      (detect_cvv_from_context (String.toList "card security code: 123")) ∧
    (∀ a ∈ detect_cvv_from_context (String.toList "card security code: 123"),
      a.score = score09 ∨ a.score = score07) :=
  C4_cvv_dedup_amended (String.toList "card security code: 123")

/-- Counterexample to claim C4 as stated: on
`"card security code: 123"` the keyword patterns `security code` and
`card security code` both anchor the digit run at positions 20-23, and the
keyword-anchored pass performs no deduplication, so the detector output
holds two candidates occupying the identical span. -/
theorem C4_cvv_dedup_counterexample :
    (detect_cvv_from_context (String.toList "card security code: 123")).map
        (fun c => (c.start, c.«end»)) = [(20, 23), (20, 23)] ∧
    ¬ List.Pairwise (fun a b : Entity => ¬(a.start = b.start ∧ a.«end» = b.«end»))
        (detect_cvv_from_context (String.toList "card security code: 123")) := by
  have hmap : (detect_cvv_from_context (String.toList "card security code: 123")).map
      (fun c => (c.start, c.«end»)) = [(20, 23), (20, 23)] := by decide
  refine ⟨hmap, fun h => ?_⟩
  have h2 : List.Pairwise (fun p q : Int × Int => ¬(p.1 = q.1 ∧ p.2 = q.2))
      ((detect_cvv_from_context (String.toList "card security code: 123")).map
        (fun c => (c.start, c.«end»))) :=
    List.pairwise_map.mpr (h.imp (fun hab => hab))
  rw [hmap] at h2
  exact (List.pairwise_cons.mp h2).1 (20, 23) (List.mem_singleton.mpr rfl) ⟨rfl, rfl⟩

/-! ### The expiry-date recognizer (src/utils.py lines 41-50)

The `Pattern` regex is
`\b(0[1-9]|1[0-2])[/\-](0?[0-9]|[0-9]{2}|[0-9]{4})\b`, scanned over the
text by the analyzer engine with `re.finditer` semantics and score 0.8.
The two month alternatives are distinguished by their first character, so
they need no backtracking; the year group's alternatives are tried in
order (`0?` greedy first), each followed by the trailing `\b`. -/

/-- The month group `0[1-9]|1[0-2]`. -/
def monthOk (m1 m2 : Char) : Bool :=
  (m1 = '0' && m2.isDigit && !(m2 = '0')) ||
    (m1 = '1' && (m2 = '0' || m2 = '1' || m2 = '2'))

/-- The year group `0?[0-9]|[0-9]{2}|[0-9]{4}` followed by `\b`, in
backtracking order: `0` plus a digit, one digit, two digits, four digits —
each accepted only if followed by a non-word character or the end. -/
def tryYear (l : List Char) : Option Nat :=
  match l with
  | [] => none
  | c1 :: rest1 =>
    if c1 = '0' && (match rest1 with
        | c2 :: rest2 => c2.isDigit && nonWordHead rest2
        | [] => false) then some 2
    else if c1.isDigit && nonWordHead rest1 then some 1
    else
      match rest1 with
      | c2 :: rest2 =>
        if c1.isDigit && c2.isDigit && nonWordHead rest2 then some 2
        else
          match rest2 with
          | c3 :: c4 :: rest4 =>
            if c1.isDigit && c2.isDigit && c3.isDigit && c4.isDigit &&
                nonWordHead rest4 then some 4
            else none
          | _ => none
      | [] => none

/-- Match the whole expiry pattern at the current position: `\b` before
(the previous character, if any, is not a word character), the month
group, `/` or `-`, then the year group with its trailing `\b`.  Returns
the total match length. -/
def matchExpiryAt (prevW : Bool) (l : List Char) : Option Nat :=
  if prevW then none
  else
    match l with
    | m1 :: m2 :: sep :: rest =>
      if monthOk m1 m2 then
        if sep = '/' || sep = '-' then
          match tryYear rest with
          | some k => some (3 + k)
          | none => none
        else none
      else none
    | _ => none

/-- `re.finditer` of the expiry pattern over the text, emitting one
EXPIRY_NO candidate with confidence 0.8 per match, exactly as the
analyzer does for the registered `PatternRecognizer`. -/
def expiryScanAux (text : List Char) : Nat → Bool → Nat → List Char → List Entity
  | _, _, _, [] => []
  | skip + 1, _, i, c :: rest => expiryScanAux text skip (isWordChar c) (i + 1) rest
  | 0, prevW, i, c :: rest =>
    match matchExpiryAt prevW (c :: rest) with
    | some len =>
      ⟨"EXPIRY_NO", (i : Nat), (i + len : Nat), slice text i (i + len),
        score08, none⟩ ::
        expiryScanAux text (len - 1) (isWordChar c) (i + 1) rest
    | none => expiryScanAux text 0 (isWordChar c) (i + 1) rest

/-- The expiry-date recognizer applied to a text: all matches of the
EXPIRY_PATTERN regex, score 0.8, type EXPIRY_NO. -/
def expiryRecognize (text : List Char) : List Entity :=
  expiryScanAux text 0 false 0 text

/-- Modelled from the spec's words (§4.2): "Expiry date: `MM/YY`,
`MM/YYYY`, or `MM-YY` style, month constrained to 01-12" — exactly the
three shapes, with `MM-YYYY` and shorter years excluded. -/
def specExpiryShape (s : List Char) : Bool :=
  match s with
  | [m1, m2, '/', y1, y2] => monthOk m1 m2 && y1.isDigit && y2.isDigit
  | [m1, m2, '/', y1, y2, y3, y4] =>
    monthOk m1 m2 && y1.isDigit && y2.isDigit && y3.isDigit && y4.isDigit
  | [m1, m2, '-', y1, y2] => monthOk m1 m2 && y1.isDigit && y2.isDigit
  | _ => false

/-- The shape the EXPIRY_PATTERN regex actually accepts: month 01-12, a
`/` or `-` separator, then an all-digit year of length 1, 2 or 4. -/
def monthSepYearShape (s : List Char) : Bool :=
  match s with
  | m1 :: m2 :: sep :: y =>
    monthOk m1 m2 && (sep = '/' || sep = '-') &&
      (y.length = 1 || y.length = 2 || y.length = 4) && y.all Char.isDigit
  | _ => false

lemma tryYear_some :
    ∀ {l : List Char} {k : Nat}, tryYear l = some k →
      (k = 1 ∨ k = 2 ∨ k = 4) ∧ k ≤ l.length ∧
        (l.take k).all Char.isDigit = true := by
  intro l k h
  have h0dig : ('0').isDigit = true := by decide
  match l with
  | [] => simp [tryYear] at h
  | [c1] =>
    simp only [tryYear] at h
    split_ifs at h with h1 h2
    · simp at h1
    · rw [Option.some_inj] at h
      subst h
      obtain ⟨hd, _⟩ := Bool.and_eq_true_iff.mp h2
      simp [hd]
  | c1 :: c2 :: rest2 =>
    simp only [tryYear] at h
    split_ifs at h with h1 h2 h3
    · rw [Option.some_inj] at h
      subst h
      obtain ⟨hc1, hrest⟩ := Bool.and_eq_true_iff.mp h1
      obtain ⟨hc2, _⟩ := Bool.and_eq_true_iff.mp hrest
      have hc1' : c1 = '0' := by simpa using hc1
      subst hc1'
      refine ⟨Or.inr (Or.inl rfl), ?_, by simp [hc2, h0dig]⟩
      simp only [List.length_cons]
      omega
    · rw [Option.some_inj] at h
      subst h
      obtain ⟨hd, _⟩ := Bool.and_eq_true_iff.mp h2
      refine ⟨Or.inl rfl, ?_, by simp [hd]⟩
      simp only [List.length_cons]
      omega
    · rw [Option.some_inj] at h
      subst h
      obtain ⟨hd, _⟩ := Bool.and_eq_true_iff.mp h3
      obtain ⟨h1d, h2d⟩ := Bool.and_eq_true_iff.mp hd
      refine ⟨Or.inr (Or.inl rfl), ?_, by simp [h1d, h2d]⟩
      simp only [List.length_cons]
      omega
    · match rest2 with
      | [] => simp at h
      | [c3] => simp at h
      | c3 :: c4 :: rest4 =>
        dsimp only at h
        split_ifs at h with h4
        rw [Option.some_inj] at h
        subst h
        obtain ⟨hd4, _⟩ := Bool.and_eq_true_iff.mp h4
        obtain ⟨hd3, h4d⟩ := Bool.and_eq_true_iff.mp hd4
        obtain ⟨hd2, h3d⟩ := Bool.and_eq_true_iff.mp hd3
        obtain ⟨h1d, h2d⟩ := Bool.and_eq_true_iff.mp hd2
        refine ⟨Or.inr (Or.inr rfl), ?_, by simp [h1d, h2d, h3d, h4d]⟩
        simp only [List.length_cons]
        omega

lemma matchExpiryAt_shape {pw : Bool} {l : List Char} {len : Nat}
    (h : matchExpiryAt pw l = some len) :
    monthSepYearShape (l.take len) = true ∧ len ≤ l.length := by
  simp only [matchExpiryAt] at h
  split_ifs at h with hpw
  match l with
  | [] => simp at h
  | [c] => simp at h
  | [c, d] => simp at h
  | m1 :: m2 :: sep :: rest =>
    dsimp only at h
    split_ifs at h with hmo hsep
    cases hty : tryYear rest with
    | none => rw [hty] at h; simp at h
    | some k =>
      rw [hty] at h
      rw [Option.some_inj] at h
      subst h
      obtain ⟨h124, hkle, hdig⟩ := tryYear_some hty
      have htake : (m1 :: m2 :: sep :: rest).take (3 + k)
          = m1 :: m2 :: sep :: rest.take k := by
        simp [List.take_succ_cons, Nat.add_comm 3 k]
      rw [htake]
      constructor
      · simp only [monthSepYearShape, hmo, hsep, Bool.true_and]
        rw [List.length_take]
        have hmin : min k rest.length = k := Nat.min_eq_left hkle
        rw [hmin]
        rcases h124 with rfl | rfl | rfl <;> simp [hdig]
      · simp only [List.length_cons]
        omega

/-- What the expiry recognizer guarantees about each candidate: type
EXPIRY_NO, confidence 0.8, and a span whose substring is month 01-12, a
`/` or `-` separator, and an all-digit year of length 1, 2 or 4. -/
def ExpiryCandOk (text : List Char) (c : Entity) : Prop :=
  c.entity_type = "EXPIRY_NO" ∧ c.score = score08 ∧
  ∃ ds len : Nat, c.start = (ds : Int) ∧ c.«end» = ((ds + len : Nat) : Int) ∧
    c.entity = slice text ds (ds + len) ∧
    monthSepYearShape (slice text ds (ds + len)) = true

lemma expiryScanAux_mem (text : List Char) :
    ∀ (l : List Char) (skip : Nat) (pw : Bool) (i : Nat), text.drop i = l →
      ∀ c ∈ expiryScanAux text skip pw i l, ExpiryCandOk text c := by
  intro l
  induction l with
  | nil => intro skip pw i _ c hc; simp [expiryScanAux] at hc
  | cons ch rest ih =>
    intro skip pw i hdrop c hc
    have hdrop' : text.drop (i + 1) = rest := drop_succ_of_drop hdrop
    match skip with
    | skip + 1 =>
      simp only [expiryScanAux] at hc
      exact ih skip (isWordChar ch) (i + 1) hdrop' c hc
    | 0 =>
      cases hm : matchExpiryAt pw (ch :: rest) with
      | none =>
        simp only [expiryScanAux, hm] at hc
        exact ih 0 (isWordChar ch) (i + 1) hdrop' c hc
      | some len =>
        simp only [expiryScanAux, hm] at hc
        rcases List.mem_cons.mp hc with rfl | hc'
        · obtain ⟨hshape, hle⟩ := matchExpiryAt_shape hm
          have hsl : slice text i (i + len) = (ch :: rest).take len := by
            rw [slice, Nat.add_sub_cancel_left, hdrop]
          exact ⟨rfl, rfl, i, len, rfl, rfl, rfl, by rw [hsl]; exact hshape⟩
        · exact ih _ (isWordChar ch) (i + 1) hdrop' c hc'

/-- Counterexample to claim C10 as stated: on input `"12/5"` the expiry
recognizer produces an EXPIRY_NO candidate covering the whole text, yet
`"12/5"` has none of the three spec shapes MM/YY, MM/YYYY, MM-YY (its year
is a single digit). -/
theorem C10_expiry_counterexample :
    expiryRecognize (String.toList "12/5")
      = [⟨"EXPIRY_NO", 0, 4, String.toList "12/5", score08, none⟩] ∧
    specExpiryShape (String.toList "12/5") = false := by decide

/-- Claim C10 (amended): every candidate of the expiry recognizer has type
EXPIRY_NO and confidence 0.8, and its substring is a month 01-12, a `/` or
`-` separator, and an all-digit year of length 1, 2 or 4 — a strictly
larger shape family than the spec's MM/YY, MM/YYYY, MM-YY (single-digit
years and `-` with four-digit years are accepted too). -/
theorem C10_expiry_recognizer_amended (text : List Char) (c : Entity)
    (hc : c ∈ expiryRecognize text) :
    c.entity_type = "EXPIRY_NO" ∧ c.score = score08 ∧
    ∃ ds len : Nat, c.start = (ds : Int) ∧ c.«end» = ((ds + len : Nat) : Int) ∧
      c.entity = slice text ds (ds + len) ∧
      monthSepYearShape (slice text ds (ds + len)) = true :=
  expiryScanAux_mem text text 0 false 0 rfl c hc

/-- Witness: `C10_expiry_recognizer_amended` applied to the candidate the
recognizer emits on `"12/5"`. -/
theorem C10_expiry_recognizer_amended_witness :
    (⟨"EXPIRY_NO", 0, 4, String.toList "12/5", score08, none⟩ : Entity).entity_type
        = "EXPIRY_NO" ∧
    (⟨"EXPIRY_NO", 0, 4, String.toList "12/5", score08, none⟩ : Entity).score
        = score08 ∧
    ∃ ds len : Nat,
      (⟨"EXPIRY_NO", 0, 4, String.toList "12/5", score08, none⟩ : Entity).start
          = (ds : Int) ∧
      (⟨"EXPIRY_NO", 0, 4, String.toList "12/5", score08, none⟩ : Entity).«end»
          = ((ds + len : Nat) : Int) ∧
      (⟨"EXPIRY_NO", 0, 4, String.toList "12/5", score08, none⟩ : Entity).entity
          = slice (String.toList "12/5") ds (ds + len) ∧
      monthSepYearShape (slice (String.toList "12/5") ds (ds + len)) = true :=
  C10_expiry_recognizer_amended (String.toList "12/5") _ (by decide)

/-! ### `mask_pii` record construction (src/utils.py lines 243-314)

The base analyzer is an external collaborator; its raw results are a
parameter.  `mask_pii` cleans the text, converts each analyzer result to an
entity dictionary whose `entity` field is the slice of the cleaned text at
the result's span, extends with the contextual CVV candidates, reclassifies
dates, resolves overlaps, maps each surviving entity to a
`MaskedEntityRecord` via the classification table, and sorts the records
ascending by position start. -/

structure RawResult where
  entity_type : String
  start : Nat
  «end» : Nat
  score : ℚ
  deriving DecidableEq, Repr

/-- The `entity_mapping` table of `mask_pii`. -/
def entity_mapping : List (String × String) :=
  [("PERSON", "full_name"), ("EMAIL_ADDRESS", "email"),
   ("PHONE_NUMBER", "phone_number"), ("DOB", "dob"),
   ("AADHAR_NUM", "aadhar_num"), ("CREDIT_DEBIT_NO", "credit_debit_no"),
   ("CVV_NO", "cvv_no"), ("EXPIRY_NO", "expiry_no")]

/-- `entity_mapping.get(t, t.lower())`. -/
def classificationOf (t : String) : String :=
  match entity_mapping.lookup t with
  | some c => c
  | none => t.toLower

structure MaskedEntityRecord where
  position : Int × Int
  classification : String
  entity : List Char
  deriving DecidableEq, Repr

/-- The `list_of_masked_entities` computation of `mask_pii`
(src/utils.py lines 252-314), with the external analyzer's results as a
parameter. -/
def mask_pii_records (text : List Char) (analyzer_results : List RawResult) :
    List MaskedEntityRecord :=
  let cleaned := clean_text text
  let entities :=
    analyzer_results.map (fun r =>
      (⟨r.entity_type, (r.start : Int), (r.«end» : Int),
        slice cleaned r.start r.«end», r.score, none⟩ : Entity))
      ++ detect_cvv_from_context cleaned
  let entities := post_process_dates cleaned entities
  let entities := resolve_overlapping_entities entities
  List.insertionSort (fun a b => a.position.1 ≤ b.position.1)
    (entities.map (fun e =>
      ⟨(e.start, e.«end»), classificationOf e.entity_type, e.entity⟩))

instance : IsTotal MaskedEntityRecord (fun a b => a.position.1 ≤ b.position.1) :=
  ⟨fun a b => Int.le_total a.position.1 b.position.1⟩

instance : IsTrans MaskedEntityRecord (fun a b => a.position.1 ≤ b.position.1) :=
  ⟨fun _ _ _ h₁ h₂ => le_trans h₁ h₂⟩

/-- The entity's recorded substring is the slice of the text at its
recorded (non-negative) span. -/
def SliceOk (t : List Char) (c : Entity) : Prop :=
  c.entity = slice t c.start.toNat c.«end».toNat

lemma kwCandOk_sliceOk {text : List Char} {c : Entity} (h : KwCandOk text c) :
    SliceOk text c := by
  obtain ⟨_, _, ms, ds, dl, _, hst, hen, _, hent, _⟩ := h
  rw [SliceOk, hst, hen, hent]
  norm_cast

lemma cvvProxScanAux_sliceOk (text : List Char) :
    ∀ (l : List Char) (skip : Nat) (pw : Bool) (i : Nat) (acc : List Entity),
      (∀ a ∈ acc, SliceOk text a) →
      ∀ c ∈ cvvProxScanAux text skip pw i l acc, SliceOk text c := by
  intro l
  induction l with
  | nil =>
    intro skip pw i acc hacc c hc
    match skip with
    | 0 => exact hacc c hc
    | _ + 1 => exact hacc c hc
  | cons ch rest ih =>
    intro skip pw i acc hacc c hc
    match skip with
    | skip + 1 => exact ih skip (isWordChar ch) (i + 1) acc hacc c hc
    | 0 =>
      cases hm : proxMatchAt pw (ch :: rest) with
      | none =>
        simp only [cvvProxScanAux, hm] at hc
        exact ih 0 (isWordChar ch) (i + 1) acc hacc c hc
      | some d =>
        simp only [cvvProxScanAux, hm] at hc
        refine ih (d - 1) (isWordChar ch) (i + 1) _ ?_ c hc
        intro a ha
        split_ifs at ha
        · rcases List.mem_append.mp ha with ha' | ha'
          · exact hacc a ha'
          · rw [List.mem_singleton] at ha'
            subst ha'
            rw [SliceOk]
            norm_cast
        · exact hacc a ha

lemma detect_cvv_sliceOk {text : List Char} :
    ∀ c ∈ detect_cvv_from_context text, SliceOk text c :=
  cvvProxScanAux_sliceOk text text 0 false 0 (cvvKeywordPass text)
    (fun _ ha => kwCandOk_sliceOk (cvvKeywordPass_mem ha))

lemma post_process_dates_fields {text : List Char} {l : List Entity} :
    ∀ c ∈ post_process_dates text l,
      ∃ a ∈ l, c.start = a.start ∧ c.«end» = a.«end» ∧ c.entity = a.entity := by
  intro c hc
  rw [post_process_dates, List.mem_map] at hc
  obtain ⟨a, ha, rfl⟩ := hc
  refine ⟨a, ha, ?_⟩
  split_ifs <;> exact ⟨rfl, rfl, rfl⟩

lemma resolve_mem {l : List Entity} :
    ∀ y ∈ resolve_overlapping_entities l, y ∈ l := by
  intro y hy
  rw [resolve_overlapping_entities, List.mem_reverse] at hy
  rcases mem_foldl_resolveStep _ _ _ hy with h | h
  · exact mem_sortByStart h
  · simp at h

/-- Claim C3: every `MaskedEntityRecord` produced by `mask_pii` carries as
`entity` exactly the substring of the normalized text at its recorded
position, and the record sequence is sorted ascending by position start —
for every input text and every behaviour of the external analyzer. -/
theorem C3_mask_records_fidelity (text : List Char) (results : List RawResult) :
    (∀ rec ∈ mask_pii_records text results,
      rec.entity = slice (clean_text text) rec.position.1.toNat rec.position.2.toNat) ∧
    List.Pairwise (fun a b => a.position.1 ≤ b.position.1)
      (mask_pii_records text results) := by
  constructor
  · intro rec hrec
    rw [mask_pii_records] at hrec
    have hrec' := (List.perm_insertionSort
      (fun a b : MaskedEntityRecord => a.position.1 ≤ b.position.1) _).mem_iff.mp hrec
    rw [List.mem_map] at hrec'
    obtain ⟨e, he, rfl⟩ := hrec'
    have he' := resolve_mem _ he
    obtain ⟨a, ha, hst, hen, hent⟩ := post_process_dates_fields _ he'
    have hs : SliceOk (clean_text text) a := by
      rcases List.mem_append.mp ha with ha' | ha'
      · rw [List.mem_map] at ha'
        obtain ⟨r, _, rfl⟩ := ha'
        rw [SliceOk]
        simp
      · exact detect_cvv_sliceOk a ha'
    show e.entity = slice (clean_text text) e.start.toNat e.«end».toNat
    rw [hst, hen, hent]
    exact hs
  · exact List.sorted_insertionSort
      (fun a b : MaskedEntityRecord => a.position.1 ≤ b.position.1) _

/-- Witness: `C3_mask_records_fidelity` at a concrete text (the CVV
scenario, with no analyzer results) — the single record's substring and
the sortedness evaluate concretely. -/
theorem C3_mask_records_fidelity_witness :
    (∀ rec ∈ mask_pii_records (String.toList "CVV: 123") [],
      rec.entity = slice (clean_text (String.toList "CVV: 123"))
        rec.position.1.toNat rec.position.2.toNat) ∧
    List.Pairwise (fun a b => a.position.1 ≤ b.position.1)
      (mask_pii_records (String.toList "CVV: 123") []) :=
  C3_mask_records_fidelity (String.toList "CVV: 123") []

/-- Claim C8 is about the code, not satisfied by it: a candidate violating
the span invariant (`start = 5 > 3 = end`, or `end` beyond the text) flows
through `resolve_overlapping_entities` untouched and `mask_pii` builds a
`MaskedEntityRecord` with the corrupted offsets `[5, 3]` instead of
failing fast: no function in the repository validates spans. -/
theorem C8_no_span_validation :
    resolve_overlapping_entities [⟨"DOB", 5, 3, [], score09, none⟩]
      = [⟨"DOB", 5, 3, [], score09, none⟩] ∧
    mask_pii_records (String.toList "abc") [⟨"DOB", 5, 3, score09⟩]
      = [⟨(5, 3), "dob", []⟩] := by decide

end EmailPII
